import Mathlib

set_option maxRecDepth 40000

/-!
Verification development for the FolderFortSync repository.

The definitions below are shallow embeddings of the Python sources:
`folder_manager.py` (the `FolderManager` class: `_make_request`,
`list_folders`, `create_folder`, `ensure_folder_structure`) and
`file_uploader.py` (the `FileUploader` class: the failure log kept by
`_upload_file`, the network-recovery monitor `_monitor_network_recovery`,
`_auto_retry_failed_uploads`, the response handling of `_upload_file`, and
`queue_upload`).

Relative directory paths are modelled as lists of path segments
(`List String`), the empty list being the root relative path "".  Python
dictionaries whose insertion order matters are modelled as association
lists with insert-or-update semantics; Python's stable `sort`/`sorted` is
modelled by `List.insertionSort`, which is a stable sort for the same key.
-/

/-- Lower-case a character, modelling `str.lower()` on ASCII. -/
def lowerChar (c : Char) : Char :=
  if 'A' ≤ c ∧ c ≤ 'Z' then Char.ofNat (c.toNat + 32) else c

/-- Lower-case a character list. -/
def lowerChars (l : List Char) : List Char := l.map lowerChar

/-- Boolean test that the first list is a prefix of the second. -/
def isPrefixChars : List Char → List Char → Bool
  | [], _ => true
  | _ :: _, [] => false
  | a :: as, b :: bs => a == b && isPrefixChars as bs

/-- Boolean substring containment on character lists, modelling Python's
`needle in haystack` for strings. -/
def containsChars (needle : List Char) : List Char → Bool
  | [] => isPrefixChars needle []
  | b :: rest => isPrefixChars needle (b :: rest) || containsChars needle rest

/-- Model of the check `'html' in content_type.lower()` in `_make_request`
(`folder_manager.py` line 31). -/
def htmlIn (ct : String) : Bool :=
  containsChars "html".toList (lowerChars ct.toList)

/-!
## `_make_request` (folder_manager.py lines 15-53)

A response is modelled by its status code, its content-type header and its
body; `body = none` models empty content, `body = some none` models content
that fails to parse as JSON, and `body = some (some d)` models content that
parses to the data `d`.  A transport-level `RequestException` is the
`ReqOutcome.exn` case.  `_make_request` returns a `(success, data)` pair
where the data component `none` models the empty dict `{}` returned on
every failure path.
-/

/-- Response of one HTTP request, as seen by `_make_request`. -/
structure ApiResp (α : Type) where
  status : Nat
  ctype : String
  body : Option (Option α)
deriving DecidableEq

/-- Outcome of issuing one HTTP request: a response, or a raised
`requests.exceptions.RequestException`. -/
inductive ReqOutcome (α : Type) where
  | resp (r : ApiResp α)
  | exn
deriving DecidableEq

/-- Shallow embedding of `FolderManager._make_request`'s handling of the
request outcome (folder_manager.py lines 25-53). -/
def make_request {α : Type} : ReqOutcome α → Bool × Option α
  | .exn => (false, none)
  | .resp r =>
    if htmlIn r.ctype then (false, none)
    else
      match r.body with
      | some (some d) => (decide (r.status < 400), some d)
      | some none => (false, none)
      | none => (true, none)

/-!
## `list_folders` response parsing (folder_manager.py lines 55-71)

The parsed JSON of a folder-listing response is either a dict with a
`data` key holding a list of entries, a bare list of entries, or something
else.  An entry may or may not carry `name` and `id` fields.
-/

/-- One entry of a folder-listing response; either field may be missing. -/
structure FEntry where
  name : Option String
  id : Option Nat
deriving DecidableEq

/-- Shape of a parsed folder-listing response body. -/
inductive ListData where
  | withData (entries : List FEntry)
  | bare (entries : List FEntry)
  | other
deriving DecidableEq

/-- The entry list `folders` extracted in `list_folders` (lines 65-69). -/
def entriesOf : ListData → List FEntry
  | .withData es => es
  | .bare es => es
  | .other => []

/-- The dict comprehension of `list_folders` line 71: iterate the entries in
order, keep those having both a `name` and an `id` field, later entries
overwriting earlier ones with the same name. -/
def foldersDict (es : List FEntry) : String → Option Nat :=
  es.foldl
    (fun acc e =>
      match e.name, e.id with
      | some n, some i => fun k => if k = n then some i else acc k
      | _, _ => acc)
    (fun _ => none)

/-- Shallow embedding of the parsing part of `list_folders`: from a parsed
response body to the returned name-to-id mapping. -/
def list_folders_parse (d : ListData) : String → Option Nat :=
  foldersDict (entriesOf d)

/-!
## `create_folder` (folder_manager.py lines 73-114)
-/

/-- Model of the while loop in `create_folder` (lines 77-81) that appends
underscore characters while the name is shorter than 3 characters.  Each
iteration of the loop lengthens the name by one character, so starting from
any string the loop runs at most 3 times; the fuel argument of `padLoop`
bounds the iterations without changing the result. -/
def padLoop : Nat → String → String
  | 0, n => n
  | k + 1, n => if n.length < 3 then padLoop k (n ++ "_") else n

/-- The name actually sent by `create_folder`: the argument, padded with
trailing underscores to 3 characters when shorter. -/
def padName (n : String) : String := padLoop 3 n

/-- Python truthiness of the optional id read from the response
(`if folder_id:`): `None` and `0` are falsy. -/
def natTruthy : Option Nat → Bool
  | some n => n != 0
  | none => false

/-- Insert-or-update on the `folder_cache` dict. -/
def cacheInsert (c : List (String × Nat)) (k : String) (v : Nat) :
    List (String × Nat) :=
  if c.any (fun e => e.1 == k) then
    c.map (fun e => if e.1 == k then (k, v) else e)
  else c ++ [(k, v)]

/-- Parsed JSON body of a folder-creation response, as read by
`create_folder` lines 97-111: `idF` models `data.get('id')`; `folderF`
models `data.get('folder', ...)` — `none` when that value is not a dict,
`some o` when it is a dict whose `id` lookup gives `o`. -/
structure CreateRData where
  idF : Option Nat
  folderF : Option (Option Nat)
deriving DecidableEq

/-- Result of one `create_folder` call: the name that was sent in the
payload, the updated `folder_cache`, and the returned folder id. -/
structure CFOut where
  sentName : String
  cache : List (String × Nat)
  result : Option Nat
deriving DecidableEq

/-- Shallow embedding of `create_folder`.  `api name parentId` models the
`_make_request('POST', '/folders', ...)` call: it yields the success flag
and, when the data is a dict, its parsed shape (`none` models non-dict
data). -/
def create_folder (api : String → Option Nat → Bool × Option CreateRData)
    (cache0 : List (String × Nat)) (name : String) (parentId : Option Nat) :
    CFOut :=
  match api (padName name) parentId with
  | (false, _) => ⟨padName name, cache0, none⟩
  | (true, none) => ⟨padName name, cache0, none⟩
  | (true, some data) =>
    if natTruthy data.idF then
      ⟨padName name, cacheInsert cache0 (padName name) (data.idF.getD 0),
        data.idF⟩
    else
      match data.folderF with
      | some o =>
        if natTruthy o then
          ⟨padName name, cacheInsert cache0 (padName name) (o.getD 0), o⟩
        else ⟨padName name, cache0, o⟩
      | none => ⟨padName name, cache0, none⟩

/-!
## `ensure_folder_structure` (folder_manager.py lines 116-183)

The mapping `folder_map` is an association list in insertion order: Python
dicts preserve insertion order, and assigning to an existing key updates
its value in place.  The remote side is abstracted by two oracles: `listF`
models the membership-plus-index lookup `existing_folders[folder_name]`
over the dict returned by `list_folders(parent_id)`, and `createF` models
`create_folder(folder_name, parent_id)` together with its effect on the
remote state.
-/

/-- The folder map: relative path (list of segments, `[]` = root) to id. -/
abbrev FMap := List (List String × Nat)

/-- Dict lookup `folder_map.get(path)`. -/
def fmGet (m : FMap) (k : List String) : Option Nat :=
  (m.find? (fun e => e.1 == k)).map (fun e => e.2)

/-- Dict assignment `folder_map[path] = id`: update in place when the key
exists, append otherwise. -/
def fmInsert (m : FMap) (k : List String) (v : Nat) : FMap :=
  if m.any (fun e => e.1 == k) then
    m.map (fun e => if e.1 == k then (k, v) else e)
  else m ++ [(k, v)]

/-- The sort `subdirs.sort(key=lambda p: len(Path(p).parts))` of line 130:
a stable sort by path-segment depth, modelled by insertion sort. -/
def sortByDepth (dirs : List (List String)) : List (List String) :=
  List.insertionSort (fun a b => a.length ≤ b.length) dirs

/-- One iteration of the creation loop of `ensure_folder_structure`
(lines 139-180) processing the relative path `relPath`, over remote-side
oracles `listF` and `createF` threading a remote state `σ`. -/
def ensureStep {σ : Type} (listF : σ → Nat → String → Option Nat)
    (createF : σ → String → Nat → σ × Option Nat)
    (acc : σ × FMap) (relPath : List String) : σ × FMap :=
  if relPath = [] then acc
  else
    match fmGet acc.2 relPath.dropLast with
    | none => acc
    | some pid =>
      match listF acc.1 pid (relPath.getLastD "") with
      | some fid =>
        if fid ≠ 0 then (acc.1, fmInsert acc.2 relPath fid) else acc
      | none =>
        match createF acc.1 (relPath.getLastD "") pid with
        | (s1, some fid) =>
          if fid ≠ 0 then (s1, fmInsert acc.2 relPath fid) else (s1, acc.2)
        | (s1, none) => (s1, acc.2)

/-- Shallow embedding of `ensure_folder_structure`: seed the map with the
root entry, sort the relative directory paths by depth, then run the
creation loop. -/
def ensure_folder_structure {σ : Type}
    (listF : σ → Nat → String → Option Nat)
    (createF : σ → String → Nat → σ × Option Nat)
    (dirs : List (List String)) (anchor : Nat) (s0 : σ) : σ × FMap :=
  (sortByDepth dirs).foldl (ensureStep listF createF) (s0, [([], anchor)])

/-!
## Remote folder state

Modelled from the spec: the remote API surface of §6 — `GET
{base}/drive/file-entries?type=folder&parentIds=<id>` lists the folders
directly under a parent (each entry carrying `id` and `name`), and `POST
{base}/folders` creates a folder under a parent and returns its fresh id.
The remote server itself is not part of this repository; this state model
instantiates the oracles of `ensure_folder_structure` for claims about
repeated runs.
-/

/-- One remote folder entry. -/
structure RFolder where
  parentId : Nat
  name : String
  fid : Nat
deriving DecidableEq

/-- Remote state: the folder entries in creation order plus the next fresh
id handed out on creation. -/
structure RemoteSt where
  folders : List RFolder
  nextId : Nat
deriving DecidableEq

/-- The entries directly under parent `p` named `n`. -/
def filtPN (st : RemoteSt) (p : Nat) (n : String) : List RFolder :=
  st.folders.filter (fun f => f.parentId == p && f.name == n)

/-- The oracle for `existing_folders[folder_name]`: the dict built by
`list_folders(parent_id)` assigns to each name the id of the last listed
entry under that parent with that name. -/
def listSrv (st : RemoteSt) (p : Nat) (n : String) : Option Nat :=
  (filtPN st p n).getLast?.map (fun f => f.fid)

/-- The oracle for `create_folder(folder_name, parent_id)` against the
modelled remote server: the padded name is created under the parent and
receives the next fresh id; mirroring `create_folder`'s truthiness check
`if folder_id:`, a created id of 0 is reported as `none`. -/
def createSrv (st : RemoteSt) (n : String) (p : Nat) :
    RemoteSt × Option Nat :=
  (⟨st.folders ++ [⟨p, padName n, st.nextId⟩], st.nextId + 1⟩,
    if st.nextId = 0 then none else some st.nextId)

/-- `ensure_folder_structure` run against the modelled remote server. -/
def ensureSrv (dirs : List (List String)) (anchor : Nat) (st : RemoteSt) :
    RemoteSt × FMap :=
  ensure_folder_structure listSrv createSrv dirs anchor st

/-- The creation loop against the modelled remote server, starting from an
arbitrary accumulator (used to reason about the loop by induction). -/
def runSrv (ds : List (List String)) (acc : RemoteSt × FMap) :
    RemoteSt × FMap :=
  ds.foldl (ensureStep listSrv createSrv) acc

/-!
## The failure log of `_upload_file` (file_uploader.py lines 177-180 and
302-312)

Every call of `_upload_file` first trims `failed_uploads_details` to its 50
most recent records when it holds more than 100, and appends one record
when the upload attempt fails.  A whole run of upload attempts is a fold
over the per-attempt outcomes (`some r` = the attempt failed and record `r`
was appended, `none` = the attempt did not append a record).
-/

/-- The trim of lines 177-180: when the log holds more than 100 records,
keep only the 50 most recent (`failed_uploads_details[-50:]`). -/
def trimLog {α : Type} (log : List α) : List α :=
  if log.length > 100 then log.drop (log.length - 50) else log

/-- One `_upload_file` call, restricted to its effect on the failure log:
trim first, then append the failure record when the attempt fails. -/
def uploadLogStep {α : Type} (log : List α) (rec : Option α) : List α :=
  match rec with
  | some r => trimLog log ++ [r]
  | none => trimLog log

/-- The failure log after a run of upload attempts starting from the empty
log of a fresh engine. -/
def runUploadLog {α : Type} (recs : List (Option α)) : List α :=
  recs.foldl uploadLogStep []

/-!
## `_monitor_network_recovery` (file_uploader.py lines 331-370)

Each iteration of the `while` loop sleeps, then either skips the probe
because the engine is paused or stopped, or probes the recovery endpoint.
A probe returns status 200 (`ok`), returns some other status (`fail`), or
raises (`exc`).  Only `exc` increments `attempt`; only `ok` ends the loop
by success.  The loop is modelled as a function of the finite list of
iteration events that occur while it runs: if the list is exhausted while
the loop would still continue, the result is `running`.
-/

/-- Outcome of one probe of the recovery endpoint. -/
inductive ProbeRes where
  | ok
  | fail
  | exc
deriving DecidableEq

/-- One iteration of the monitor loop: a paused/stopped iteration that
skips the probe, or a probe with its outcome. -/
inductive IterEv where
  | skip
  | probe (p : ProbeRes)
deriving DecidableEq

/-- State of the monitor after consuming the given iteration events. -/
inductive MonRes where
  | recovered
  | exhausted
  | running
deriving DecidableEq

/-- Shallow embedding of the monitor loop.  Arguments: the iteration
events, the current `attempt` counter and the number of probes performed so
far; result: the loop state, the total probes performed and the final
`attempt` counter.  The guard `30 ≤ a` is the `while` condition
`attempt < max_retries` with `max_retries = 30`. -/
def monitorLoop (evs : List IterEv) (a pr : Nat) : MonRes × Nat × Nat :=
  if 30 ≤ a then (.exhausted, pr, a)
  else
    match evs with
    | [] => (.running, pr, a)
    | .skip :: rest => monitorLoop rest a pr
    | .probe .ok :: _ => (.recovered, pr + 1, a)
    | .probe .fail :: rest => monitorLoop rest a (pr + 1)
    | .probe .exc :: rest => monitorLoop rest (a + 1) (pr + 1)

/-!
## `_auto_retry_failed_uploads` (file_uploader.py lines 372-411)
-/

/-- One record of `failed_uploads_details` (lines 307-312). -/
structure FailRec where
  path : String
  folderId : Nat
  err : String
  ts : Nat
deriving DecidableEq

/-- The sort `sorted(failed_uploads_details, key=lambda x: x['timestamp'],
reverse=True)` of line 381: a stable sort putting the most recent records
first, modelled by insertion sort. -/
def sortDescTs (l : List FailRec) : List FailRec :=
  List.insertionSort (fun a b => b.ts ≤ a.ts) l

/-- The dedup loop of lines 378-385: walk the records most recent first,
pick the first record of each path whose file still exists on disk
(`ex` models `os.path.exists`), and remember seen paths. -/
def collectUnique (ex : String → Bool) :
    List FailRec → List String → List FailRec → List FailRec
  | [], _, acc => acc
  | f :: rest, seen, acc =>
    if f.path ∈ seen then collectUnique ex rest seen acc
    else if ex f.path then
      collectUnique ex rest (f.path :: seen) (acc ++ [f])
    else collectUnique ex rest seen acc

/-- The `unique_failures` list of `_auto_retry_failed_uploads`. -/
def uniqueFailures (log : List FailRec) (ex : String → Bool) :
    List FailRec :=
  collectUnique ex (sortDescTs log) [] []

/-- Python's `list.remove`: drop the first element equal to `r` (the source
guards the call with a membership test, so an absent element is a no-op
either way). -/
def eraseRec : List FailRec → FailRec → List FailRec
  | [], _ => []
  | x :: xs, r => if x = r then xs else x :: eraseRec xs r

/-- Shallow embedding of `_auto_retry_failed_uploads`: returns the failure
log after the requeue loop of lines 393-411 and the list of records
re-enqueued, in order. -/
def auto_retry_failed_uploads (log : List FailRec) (ex : String → Bool) :
    List FailRec × List FailRec :=
  (uniqueFailures log ex).foldl
    (fun st f => (eraseRec st.1 f, st.2 ++ [f])) (log, [])

/-!
## The upload response handling of `_upload_file` (file_uploader.py lines
247-273)
-/

/-- The response of the multipart `POST {base_url}/uploads` request. -/
structure UploadResp where
  status : Nat
  text : String
  ctype : String
deriving DecidableEq

/-- What the per-file upload reports for one HTTP response. -/
inductive UploadOutcome where
  | success
  | failure (msg : String)
deriving DecidableEq

/-- The error text of line 269. -/
def uploadFailMsg (fileName : String) (folderId : Nat) (r : UploadResp) :
    String :=
  "Upload failed for " ++ fileName ++ ": HTTP " ++ toString r.status ++
    " - " ++ r.text ++ " (folder ID: " ++ toString folderId ++ ")"

/-- Shallow embedding of the response handling of `_upload_file` lines
257-273: status 201 invokes `on_success`; every other status invokes
`on_error` with the message of line 272.  The content type of the response
is carried in `r` but never consulted by the source. -/
def handle_upload_response (filePath fileName : String) (folderId : Nat)
    (r : UploadResp) : UploadOutcome :=
  if r.status = 201 then .success
  else .failure ("Upload error for " ++ filePath ++ ": " ++
    uploadFailMsg fileName folderId r)

/-!
## `queue_upload` (file_uploader.py lines 450-491)

The remembered `latest_base_url` / `latest_api_token` / `latest_callbacks`
attributes are modelled as optional fields (`none` = attribute not yet
set).  Callbacks are opaque and identified by a tag.
-/

/-- The remembered latest transport values of a `FileUploader` instance. -/
structure EngineMem where
  latestBase : Option String
  latestTok : Option String
  latestCbs : Option Nat
deriving DecidableEq

/-- The tuple put on the upload queue (line 481). -/
structure UploadJob where
  path : String
  folderId : Nat
  base : Option String
  tok : Option String
  cbs : Option Nat
  basePath : Option String
deriving DecidableEq

/-- Shallow embedding of `queue_upload` lines 453-481: fall back to the
remembered values for omitted arguments, remember every value that is now
known, and enqueue the job tuple. -/
def queue_upload (st : EngineMem) (path : String) (folderId : Nat)
    (base tok : Option String) (cbs : Option Nat)
    (basePath : Option String) : EngineMem × UploadJob :=
  let b := match base with | none => st.latestBase | some x => some x
  let t := match tok with | none => st.latestTok | some x => some x
  let c := match cbs with | none => st.latestCbs | some x => some x
  let st1 : EngineMem :=
    ⟨match b with | some x => some x | none => st.latestBase,
     match t with | some x => some x | none => st.latestTok,
     match c with | some x => some x | none => st.latestCbs⟩
  (st1, ⟨path, folderId, b, t, c, basePath⟩)

/-!
## Padding lemmas for `create_folder`
-/

theorem padName_of_le (n : String) (h : 3 ≤ n.length) : padName n = n := by
  unfold padName padLoop
  rw [if_neg (by omega)]

theorem padName_append (n : String) (h : n.length < 3) :
    padName n = n ++ String.mk (List.replicate (3 - n.length) '_') := by
  have h3 : n.length = 0 ∨ n.length = 1 ∨ n.length = 2 := by omega
  have l1 : ∀ s : String, (s ++ "_").length = s.length + 1 := by
    intro s
    rw [String.length_append]
    rfl
  rcases h3 with h0 | h1 | h2
  · have e1 : (n ++ "_").length = 1 := by rw [l1, h0]
    have e2 : ((n ++ "_") ++ "_").length = 2 := by rw [l1, e1]
    unfold padName padLoop
    rw [if_pos (by omega)]
    unfold padLoop
    rw [if_pos (by omega)]
    unfold padLoop
    rw [if_pos (by omega)]
    rw [String.append_assoc, String.append_assoc, h0]
    rfl
  · have e1 : (n ++ "_").length = 2 := by rw [l1, h1]
    unfold padName padLoop
    rw [if_pos (by omega)]
    unfold padLoop
    rw [if_pos (by omega)]
    unfold padLoop
    rw [if_neg (by rw [l1, e1]; omega)]
    rw [String.append_assoc, h1]
    rfl
  · unfold padName padLoop
    rw [if_pos (by omega)]
    unfold padLoop
    rw [if_neg (by rw [l1, h2]; omega)]
    rw [h2]
    rfl

theorem padName_length (n : String) (h : n.length < 3) :
    (padName n).length = 3 := by
  rw [padName_append n h, String.length_append]
  have : (String.mk (List.replicate (3 - n.length) '_')).length =
      3 - n.length := by
    show (List.replicate (3 - n.length) '_').length = 3 - n.length
    simp
  omega

theorem mem_cacheInsert {c : List (String × Nat)} {k0 : String} {v0 : Nat}
    {k : String} {v : Nat} (h : (k, v) ∈ cacheInsert c k0 v0) :
    (k, v) ∈ c ∨ k = k0 := by
  unfold cacheInsert at h
  split at h
  · rcases List.mem_map.1 h with ⟨e, he, heq⟩
    by_cases hek : (e.1 == k0) = true
    · rw [if_pos hek] at heq
      right
      exact (congrArg Prod.fst heq).symm
    · rw [if_neg hek] at heq
      left
      rw [heq] at he
      exact he
  · rcases List.mem_append.1 h with h1 | h1
    · exact Or.inl h1
    · right
      have he : (k, v) = (k0, v0) := List.mem_singleton.1 h1
      exact congrArg Prod.fst he

/-- C5: for every name argument, `create_folder` sends and caches the name
unchanged when it has 3 or more characters, and otherwise sends and caches
the name padded with trailing underscores to exactly 3 characters; any
cache entry added by the call is keyed by that (possibly padded) name. -/
theorem c5_create_folder_padding
    (api : String → Option Nat → Bool × Option CreateRData)
    (cache0 : List (String × Nat)) (name : String) (pid : Option Nat) :
    (create_folder api cache0 name pid).sentName = padName name
    ∧ (3 ≤ name.length → (create_folder api cache0 name pid).sentName = name)
    ∧ (name.length < 3 →
        (create_folder api cache0 name pid).sentName.length = 3
        ∧ (create_folder api cache0 name pid).sentName =
            name ++ String.mk (List.replicate (3 - name.length) '_'))
    ∧ (∀ k v, (k, v) ∈ (create_folder api cache0 name pid).cache →
        (k, v) ∈ cache0 ∨ k = padName name) := by
  have hsent : (create_folder api cache0 name pid).sentName = padName name := by
    unfold create_folder
    rcases h : api (padName name) pid with ⟨b, d⟩
    cases b
    · rfl
    · cases d with
      | none => rfl
      | some data =>
        by_cases ht : natTruthy data.idF = true
        · simp [ht]
        · simp only [Bool.not_eq_true] at ht
          cases hf : data.folderF with
          | none => simp [ht, hf]
          | some o =>
            by_cases ht2 : natTruthy o = true
            · simp [ht, hf, ht2]
            · simp only [Bool.not_eq_true] at ht2
              simp [ht, hf, ht2]
  have hcache : ∀ k v, (k, v) ∈ (create_folder api cache0 name pid).cache →
      (k, v) ∈ cache0 ∨ k = padName name := by
    intro k v hmem
    unfold create_folder at hmem
    rcases h : api (padName name) pid with ⟨b, d⟩
    rw [h] at hmem
    cases b
    · exact Or.inl hmem
    · cases d with
      | none => exact Or.inl hmem
      | some data =>
        by_cases ht : natTruthy data.idF = true
        · simp only [ht, if_true] at hmem
          exact mem_cacheInsert hmem
        · simp only [Bool.not_eq_true] at ht
          simp only [ht, Bool.false_eq_true, if_false] at hmem
          cases hf : data.folderF with
          | none =>
            rw [hf] at hmem
            exact Or.inl hmem
          | some o =>
            rw [hf] at hmem
            by_cases ht2 : natTruthy o = true
            · simp only [ht2, if_true] at hmem
              exact mem_cacheInsert hmem
            · simp only [Bool.not_eq_true] at ht2
              simp only [ht2, Bool.false_eq_true, if_false] at hmem
              exact Or.inl hmem
  refine ⟨hsent, ?_, ?_, hcache⟩
  · intro h3
    rw [hsent, padName_of_le name h3]
  · intro hlt
    rw [hsent]
    exact ⟨padName_length name hlt, padName_append name hlt⟩

/-- Witness for C5 at concrete inputs: a 2-character name is padded to
three characters. -/
theorem c5_witness :
    3 ≤ ("abcdef" : String).length
    ∧ (create_folder (fun _ _ => (true, some ⟨some 9, none⟩)) [] "abcdef" none).sentName = "abcdef"
    ∧ ("ab" : String).length < 3
    ∧ (create_folder (fun _ _ => (true, some ⟨some 9, none⟩)) [] "ab" none).sentName.length = 3
    ∧ (create_folder (fun _ _ => (true, some ⟨some 9, none⟩)) [] "ab" none).sentName =
        "ab" ++ String.mk (List.replicate (3 - ("ab" : String).length) '_') :=
  ⟨by decide,
   (c5_create_folder_padding (fun _ _ => (true, some ⟨some 9, none⟩)) [] "abcdef" none).2.1 (by decide),
   by decide,
   ((c5_create_folder_padding (fun _ _ => (true, some ⟨some 9, none⟩)) [] "ab" none).2.2.1 (by decide)).1,
   ((c5_create_folder_padding (fun _ _ => (true, some ⟨some 9, none⟩)) [] "ab" none).2.2.1 (by decide)).2⟩

/-!
## C10: the folder-listing mapping
-/

theorem foldersDict_getLast (es : List FEntry) (nm : String) :
    foldersDict es nm =
      ((es.filter (fun e => e.name == some nm && e.id.isSome)).getLast?).bind
        (fun e => e.id) := by
  induction es using List.reverseRecOn with
  | nil => simp [foldersDict]
  | append_singleton xs x ih =>
    have hx : foldersDict (xs ++ [x]) =
        (fun (acc : String → Option Nat) (e : FEntry) =>
          match e.name, e.id with
          | some n, some i => fun k => if k = n then some i else acc k
          | _, _ => acc) (foldersDict xs) x := by
      unfold foldersDict
      rw [List.foldl_append, List.foldl_cons, List.foldl_nil]
    rw [hx, List.filter_append]
    cases hn : x.name with
    | none =>
      simp only [hn]
      have : (List.filter (fun e => e.name == some nm && e.id.isSome) [x]) = [] := by
        simp [List.filter, hn]
      rw [this, List.append_nil]
      exact ih
    | some n =>
      cases hi : x.id with
      | none =>
        simp only [hn, hi]
        have : (List.filter (fun e => e.name == some nm && e.id.isSome) [x]) = [] := by
          simp [List.filter, hi]
        rw [this, List.append_nil]
        exact ih
      | some i =>
        simp only [hn, hi]
        by_cases hnm : nm = n
        · subst hnm
          have : (List.filter (fun e => e.name == some nm && e.id.isSome) [x]) = [x] := by
            simp [List.filter, hn, hi]
          rw [this, List.getLast?_concat]
          simp [hi]
        · rw [if_neg hnm]
          have hb : (n == nm) = false := beq_eq_false_iff_ne.2 fun hc => hnm hc.symm
          have : (List.filter (fun e => e.name == some nm && e.id.isSome) [x]) = [] := by
            simp [List.filter, hn, hi, hb]
          rw [this, List.append_nil]
          exact ih

/-- C10: for every parsed folder-listing response, the mapping returned by
`list_folders` assigns to a name the id of the last response entry carrying
both a `name` and an `id` field with that name, entries missing either
field being dropped; a name is mapped at all exactly when some complete
entry carries it. -/
theorem c10_list_folders_parse (d : ListData) (nm : String) :
    list_folders_parse d nm =
      (((entriesOf d).filter (fun e => e.name == some nm && e.id.isSome)).getLast?).bind
        (fun e => e.id)
    ∧ ((list_folders_parse d nm).isSome ↔
        ∃ e ∈ entriesOf d, e.name = some nm ∧ e.id.isSome) := by
  constructor
  · exact foldersDict_getLast (entriesOf d) nm
  · rw [list_folders_parse, foldersDict_getLast (entriesOf d) nm]
    constructor
    · intro hs
      rcases Option.isSome_iff_exists.1 hs with ⟨i, hi⟩
      rcases Option.bind_eq_some.1 hi with ⟨e, he, hei⟩
      have hin : e ∈ (entriesOf d).filter
          (fun e => e.name == some nm && e.id.isSome) := by
        rcases List.mem_getLast?_eq_getLast he with ⟨hne, hxe⟩
        rw [hxe]
        exact List.getLast_mem hne
      have hmem := List.mem_of_mem_filter hin
      have hprop := List.of_mem_filter hin
      simp only [Bool.and_eq_true, beq_iff_eq] at hprop
      exact ⟨e, hmem, hprop.1, hprop.2⟩
    · intro ⟨e, he, hen, hei⟩
      have hfe : e ∈ (entriesOf d).filter (fun e => e.name == some nm && e.id.isSome) := by
        apply List.mem_filter.2
        exact ⟨he, by simp [hen, hei]⟩
      have hne : (entriesOf d).filter (fun e => e.name == some nm && e.id.isSome) ≠ [] := by
        intro hnil
        rw [hnil] at hfe
        exact absurd hfe (List.not_mem_nil e)
      have hlast : ∃ x, ((entriesOf d).filter
          (fun e => e.name == some nm && e.id.isSome)).getLast? = some x := by
        rw [List.getLast?_eq_getLast _ hne]
        exact ⟨_, rfl⟩
      rcases hlast with ⟨x, hx⟩
      rw [hx]
      have hxin : x ∈ (entriesOf d).filter
          (fun e => e.name == some nm && e.id.isSome) := by
        rcases List.mem_getLast?_eq_getLast hx with ⟨hne2, hxe⟩
        rw [hxe]
        exact List.getLast_mem hne2
      have hxf := List.of_mem_filter hxin
      simp only [Bool.and_eq_true] at hxf
      simp only [Option.some_bind]
      exact hxf.2

/-!
## C7 and C8: HTML responses and upload status handling
-/

/-- Counterexample to C7: a file-upload response whose content type is
`text/html` but whose status is 201 is reported as a success by
`_upload_file`, which never inspects the content type — so an HTML
response is not treated as a failure on the upload path. -/
theorem c7_counterexample :
    handle_upload_response "/tmp/a.txt" "a.txt" 7
      ⟨201, "<html>error page</html>", "text/html"⟩ = .success
    ∧ htmlIn "text/html" = true := by
  constructor
  · decide
  · decide

/-- C7 amended: requests issued through `_make_request` (folder listing and
folder creation) treat a response whose content type contains "html" as a
failure regardless of status, never consulting the body; file-upload
responses are judged by status alone — status 201 is a success even with an
HTML content type, and any other status is a failure. -/
theorem c7_amended {α : Type} (r : ApiResp α) (u : UploadResp)
    (fp fn : String) (fid : Nat) (h : htmlIn r.ctype = true) :
    make_request (.resp r) = (false, none)
    ∧ (handle_upload_response fp fn fid u = .success ↔ u.status = 201) := by
  constructor
  · simp only [make_request]
    rw [if_pos h]
  · unfold handle_upload_response
    by_cases hs : u.status = 201
    · rw [if_pos hs]
      simp [hs]
    · rw [if_neg hs]
      simp [hs]

/-- Witness for C7 amended at concrete inputs. -/
theorem c7_witness :
    make_request (ReqOutcome.resp (⟨500, "text/html", some (some (0 : Nat))⟩ :
        ApiResp Nat)) = (false, none)
    ∧ (handle_upload_response "p" "n" 1 ⟨404, "b", "text/html"⟩ = .success ↔
        (404 : Nat) = 201) :=
  c7_amended ⟨500, "text/html", some (some 0)⟩ ⟨404, "b", "text/html"⟩ "p" "n" 1 (by decide)

/-- C8: the per-file upload reports success exactly when the response
status is the 201 "created" status, and for every other status it reports
a failure whose error text contains the response body. -/
theorem c8_upload_status (fp fn : String) (fid : Nat) (r : UploadResp) :
    (handle_upload_response fp fn fid r = .success ↔ r.status = 201)
    ∧ (r.status ≠ 201 → ∃ pre post : String,
        handle_upload_response fp fn fid r = .failure (pre ++ r.text ++ post)) := by
  constructor
  · unfold handle_upload_response
    by_cases hs : r.status = 201
    · rw [if_pos hs]
      simp [hs]
    · rw [if_neg hs]
      simp [hs]
  · intro hs
    refine ⟨"Upload error for " ++ fp ++ ": " ++ ("Upload failed for " ++ fn ++
      ": HTTP " ++ toString r.status ++ " - "),
      " (folder ID: " ++ toString fid ++ ")", ?_⟩
    unfold handle_upload_response uploadFailMsg
    rw [if_neg hs]
    simp [String.append_assoc]

/-- Witness for C8 at a concrete failing response. -/
theorem c8_witness :
    (handle_upload_response "p" "n" 2 ⟨500, "boom", "ct"⟩ = .success ↔
        (500 : Nat) = 201)
    ∧ ∃ pre post : String,
        handle_upload_response "p" "n" 2 ⟨500, "boom", "ct"⟩ =
          .failure (pre ++ "boom" ++ post) :=
  ⟨(c8_upload_status "p" "n" 2 ⟨500, "boom", "ct"⟩).1,
   (c8_upload_status "p" "n" 2 ⟨500, "boom", "ct"⟩).2 (by decide)⟩

/-!
## C9: `queue_upload` fallback and memory of transport values
-/

/-- C9: an omitted `base_url`, `api_token` or `callbacks` argument falls
back to the value remembered from earlier `queue_upload` calls, explicit
values are both used and remembered, and omitted arguments never overwrite
the remembered values. -/
theorem c9_queue_upload (st : EngineMem) (path : String) (fid : Nat)
    (base tok : Option String) (cbs : Option Nat) (bp : Option String) :
    (base = none →
      (queue_upload st path fid base tok cbs bp).2.base = st.latestBase
      ∧ (queue_upload st path fid base tok cbs bp).1.latestBase = st.latestBase)
    ∧ (∀ x, base = some x →
      (queue_upload st path fid base tok cbs bp).2.base = some x
      ∧ (queue_upload st path fid base tok cbs bp).1.latestBase = some x)
    ∧ (tok = none →
      (queue_upload st path fid base tok cbs bp).2.tok = st.latestTok
      ∧ (queue_upload st path fid base tok cbs bp).1.latestTok = st.latestTok)
    ∧ (∀ x, tok = some x →
      (queue_upload st path fid base tok cbs bp).2.tok = some x
      ∧ (queue_upload st path fid base tok cbs bp).1.latestTok = some x)
    ∧ (cbs = none →
      (queue_upload st path fid base tok cbs bp).2.cbs = st.latestCbs
      ∧ (queue_upload st path fid base tok cbs bp).1.latestCbs = st.latestCbs)
    ∧ (∀ x, cbs = some x →
      (queue_upload st path fid base tok cbs bp).2.cbs = some x
      ∧ (queue_upload st path fid base tok cbs bp).1.latestCbs = some x) := by
  refine ⟨?_, ?_, ?_, ?_, ?_, ?_⟩
  · intro hb
    subst hb
    cases hl : st.latestBase <;> simp [queue_upload, hl]
  · intro x hb
    subst hb
    simp [queue_upload]
  · intro ht
    subst ht
    cases hl : st.latestTok <;> simp [queue_upload, hl]
  · intro x ht
    subst ht
    simp [queue_upload]
  · intro hc
    subst hc
    cases hl : st.latestCbs <;> simp [queue_upload, hl]
  · intro x hc
    subst hc
    simp [queue_upload]

/-- Witness for C9: a retry enqueue that omits all transport arguments
reuses the values remembered from a prior call that supplied them. -/
theorem c9_witness :
    (queue_upload ⟨some "https://api", some "tok9", some 4⟩ "f.txt" 3
        none none none none).2.base = some "https://api"
    ∧ (queue_upload ⟨some "https://api", some "tok9", some 4⟩ "f.txt" 3
        none none none none).2.tok = some "tok9"
    ∧ (queue_upload ⟨some "https://api", some "tok9", some 4⟩ "f.txt" 3
        none none none none).2.cbs = some 4 :=
  ⟨((c9_queue_upload ⟨some "https://api", some "tok9", some 4⟩ "f.txt" 3
      none none none none).1 rfl).1,
   ((c9_queue_upload ⟨some "https://api", some "tok9", some 4⟩ "f.txt" 3
      none none none none).2.2.1 rfl).1,
   ((c9_queue_upload ⟨some "https://api", some "tok9", some 4⟩ "f.txt" 3
      none none none none).2.2.2.2.1 rfl).1⟩

/-!
## C2: the failure-log bound
-/

theorem trimLog_length_le {α : Type} (log : List α) :
    (trimLog log).length ≤ max (min log.length 100) 50 := by
  unfold trimLog
  by_cases hl : log.length > 100
  · rw [if_pos hl]
    simp
    omega
  · rw [if_neg hl]
    omega

theorem uploadLogStep_length_le {α : Type} (log : List α) (rec : Option α)
    (h : log.length ≤ 101) : (uploadLogStep log rec).length ≤ 101 := by
  have ht := trimLog_length_le log
  cases rec with
  | none =>
    show (trimLog log).length ≤ 101
    omega
  | some r =>
    show (trimLog log ++ [r]).length ≤ 101
    rw [List.length_append]
    simp
    omega

theorem foldl_uploadLogStep_length_le {α : Type} (recs : List (Option α))
    (init : List α) (h : init.length ≤ 101) :
    (recs.foldl uploadLogStep init).length ≤ 101 := by
  induction recs generalizing init with
  | nil => exact h
  | cons r rest ih =>
    rw [List.foldl_cons]
    exact ih (uploadLogStep init r) (uploadLogStep_length_le init r h)

/-- Counterexample to C2: after 101 consecutive failing upload attempts the
stored failure log holds 101 records, so the log is not bounded by 100 at
all times (the trim only runs at the start of the next attempt). -/
theorem c2_counterexample :
    (runUploadLog ((List.range 101).map some)).length = 101 := by decide

/-- C2 amended: the failure log never exceeds 101 records; at the start of
each upload attempt a log that exceeds 100 records is trimmed to exactly
its 50 most recent records, so after 150 failures the log holds the 99 most
recent records — at most 100, and all of them the most recent ones. -/
theorem c2_amended {α : Type} (recs : List (Option α)) :
    (runUploadLog recs).length ≤ 101
    ∧ runUploadLog ((List.range 150).map some) = (List.range 150).drop 51
    ∧ (runUploadLog ((List.range 150).map some)).length ≤ 100 := by
  refine ⟨?_, by decide, by decide⟩
  unfold runUploadLog
  exact foldl_uploadLogStep_length_le recs [] (by simp)

/-!
## C3: the network-recovery monitor
-/

/-- Counterexample to C3: thirty-one probes that all return a non-200
status without raising leave the `attempt` counter at 0, so the monitor has
already performed 31 > 30 probe attempts and is still running — the probe
bound of the claim does not hold for HTTP-failure outcomes. -/
theorem c3_counterexample :
    monitorLoop (List.replicate 31 (IterEv.probe ProbeRes.fail)) 0 0 =
      (MonRes.running, 31, 0)
    ∧ 30 < 31 := by
  constructor
  · decide
  · decide

/-- C3 amended: starting from an `attempt` counter of at most 30, the
counter never exceeds 30, i.e. at most 30 probe attempts can end in an
exception; the monitor reports exhaustion only with the counter at 30, and
a probe that succeeds (HTTP 200) ends the monitor immediately.  Probes
answered with a non-200 status do not increase the counter, so the number
of probes overall is unbounded. -/
theorem c3_amended (evs : List IterEv) (a pr : Nat) (h : a ≤ 30) :
    (monitorLoop evs a pr).2.2 ≤ 30
    ∧ ((monitorLoop evs a pr).1 = MonRes.exhausted →
        (monitorLoop evs a pr).2.2 = 30)
    ∧ (a < 30 → monitorLoop (IterEv.probe ProbeRes.ok :: evs) a pr =
        (MonRes.recovered, pr + 1, a)) := by
  induction evs generalizing a pr with
  | nil =>
    refine ⟨?_, ?_, ?_⟩
    · unfold monitorLoop
      by_cases ha : 30 ≤ a
      · rw [if_pos ha]; exact h
      · rw [if_neg ha]; exact h
    · unfold monitorLoop
      by_cases ha : 30 ≤ a
      · rw [if_pos ha]
        intro _
        show a = 30
        omega
      · rw [if_neg ha]
        intro hc
        exact absurd hc (by simp)
    · intro ha
      unfold monitorLoop
      rw [if_neg (by omega)]
  | cons e rest ih =>
    refine ⟨?_, ?_, ?_⟩
    · unfold monitorLoop
      by_cases ha : 30 ≤ a
      · rw [if_pos ha]; exact h
      · rw [if_neg ha]
        cases e with
        | skip => exact (ih a pr h).1
        | probe p =>
          cases p with
          | ok => exact h
          | fail => exact (ih a (pr + 1) h).1
          | exc => exact (ih (a + 1) (pr + 1) (by omega)).1
    · unfold monitorLoop
      by_cases ha : 30 ≤ a
      · rw [if_pos ha]
        intro _
        show a = 30
        omega
      · rw [if_neg ha]
        cases e with
        | skip => exact (ih a pr h).2.1
        | probe p =>
          cases p with
          | ok =>
            intro hc
            exact absurd hc (by simp)
          | fail => exact (ih a (pr + 1) h).2.1
          | exc => exact (ih (a + 1) (pr + 1) (by omega)).2.1
    · intro ha
      unfold monitorLoop
      rw [if_neg (by omega)]

/-- Witness for C3 amended: thirty exception probes exhaust the counter,
and a successful probe terminates the monitor at once. -/
theorem c3_witness :
    (monitorLoop (List.replicate 30 (IterEv.probe ProbeRes.exc)) 0 0).2.2 ≤ 30
    ∧ monitorLoop (IterEv.probe ProbeRes.ok ::
        List.replicate 30 (IterEv.probe ProbeRes.exc)) 0 0 =
        (MonRes.recovered, 1, 0) :=
  ⟨(c3_amended (List.replicate 30 (IterEv.probe ProbeRes.exc)) 0 0 (by decide)).1,
   (c3_amended (List.replicate 30 (IterEv.probe ProbeRes.exc)) 0 0 (by decide)).2.2
     (by decide)⟩

/-!
## C1: the depth-ordering invariant of the folder map
-/

/-- Keys of an association list in insertion order satisfy the
parent-before-child property: every non-root key's parent path occurs at
the same position or earlier. -/
def parentBefore (keys : List (List String)) : Prop :=
  ∀ i, (hi : i < keys.length) → keys[i] ≠ [] →
    (keys[i]).dropLast ∈ keys.take (i + 1)

theorem fmGet_mem_keys {m : FMap} {k : List String} {v : Nat}
    (h : fmGet m k = some v) : k ∈ m.map Prod.fst := by
  unfold fmGet at h
  cases hf : m.find? (fun e => e.1 == k) with
  | none => rw [hf] at h; simp at h
  | some e =>
    have he := List.mem_of_find?_eq_some hf
    have hp := List.find?_some hf
    simp only [beq_iff_eq] at hp
    exact hp ▸ List.mem_map_of_mem Prod.fst he

theorem head_fmGet {m : FMap} {anchor : Nat}
    (h : m.head? = some ([], anchor)) : fmGet m [] = some anchor := by
  cases m with
  | nil => simp at h
  | cons e rest =>
    have he : e = ([], anchor) := by
      simpa using h
    subst he
    unfold fmGet
    rw [List.find?_cons_of_pos _ (by simp)]
    rfl

theorem parentBefore_append (ks : List (List String)) (k : List String)
    (hpb : parentBefore ks) (hd : k.dropLast ∈ ks) :
    parentBefore (ks ++ [k]) := by
  intro i hi hne
  rw [List.length_append, List.length_singleton] at hi
  by_cases hlt : i < ks.length
  · have hgi : (ks ++ [k])[i] = ks[i] := List.getElem_append_left hlt
    rw [hgi] at hne ⊢
    have htk : (ks ++ [k]).take (i + 1) = ks.take (i + 1) :=
      List.take_append_of_le_length (by omega)
    rw [htk]
    exact hpb i hlt hne
  · have hieq : i = ks.length := by omega
    subst hieq
    have hgi : (ks ++ [k])[ks.length] = k := by
      rw [List.getElem_append_right (by omega)]
      simp
    rw [hgi]
    have htk : (ks ++ [k]).take (ks.length + 1) = ks ++ [k] :=
      List.take_of_length_le (by simp)
    rw [htk]
    exact List.mem_append_left _ hd

theorem parentBefore_fmInsert {m : FMap} {k : List String} {v : Nat}
    (hpb : parentBefore (m.map Prod.fst))
    (hd : k.dropLast ∈ m.map Prod.fst) :
    parentBefore ((fmInsert m k v).map Prod.fst) := by
  unfold fmInsert
  split
  · have hkeys : (m.map (fun e => if e.1 == k then (k, v) else e)).map Prod.fst
        = m.map Prod.fst := by
      rw [List.map_map]
      apply List.map_congr_left
      intro e he
      by_cases hek : (e.1 == k) = true
      · have : e.1 = k := by simpa using hek
        simp [Function.comp, hek, this]
      · simp [Function.comp, hek]
    rw [hkeys]
    exact hpb
  · rw [List.map_append]
    exact parentBefore_append _ k hpb hd

theorem fmInsert_head {m : FMap} {k : List String} {v : Nat} {anchor : Nat}
    (hk : k ≠ []) (hh : m.head? = some ([], anchor)) :
    (fmInsert m k v).head? = some ([], anchor) := by
  cases m with
  | nil => simp at hh
  | cons e rest =>
    have he : e = ([], anchor) := by simpa using hh
    subst he
    unfold fmInsert
    split
    · simp only [List.map_cons, List.head?_cons]
      have hb : ((([], anchor) : List String × Nat).1 == k) = false := by
        rw [beq_eq_false_iff_ne]
        exact fun hc => hk hc.symm
      rw [hb]
      rfl
    · rw [List.cons_append, List.head?_cons]

/-- The invariant of the folder map maintained by the creation loop. -/
def EnsureInv (anchor : Nat) (m : FMap) : Prop :=
  m.head? = some ([], anchor) ∧ parentBefore (m.map Prod.fst)

theorem ensureStep_inv {σ : Type} (lf : σ → Nat → String → Option Nat)
    (cf : σ → String → Nat → σ × Option Nat) (anchor : Nat)
    (acc : σ × FMap) (d : List String) (h : EnsureInv anchor acc.2) :
    EnsureInv anchor (ensureStep lf cf acc d).2 := by
  unfold ensureStep
  by_cases hd : d = []
  · rw [if_pos hd]
    exact h
  · rw [if_neg hd]
    split
    · exact h
    · next pid hg =>
      have hmem : d.dropLast ∈ acc.2.map Prod.fst := fmGet_mem_keys hg
      split
      · next fid hl =>
        split
        · exact ⟨fmInsert_head hd h.1, parentBefore_fmInsert h.2 hmem⟩
        · exact h
      · next hl =>
        split
        · next s1 fid hc =>
          split
          · exact ⟨fmInsert_head hd h.1, parentBefore_fmInsert h.2 hmem⟩
          · exact h
        · next s1 hc => exact h

theorem foldl_ensureStep_inv {σ : Type} (lf : σ → Nat → String → Option Nat)
    (cf : σ → String → Nat → σ × Option Nat) (anchor : Nat)
    (ds : List (List String)) (acc : σ × FMap) (h : EnsureInv anchor acc.2) :
    EnsureInv anchor (ds.foldl (ensureStep lf cf) acc).2 := by
  induction ds generalizing acc with
  | nil => exact h
  | cons d rest ih =>
    rw [List.foldl_cons]
    exact ih _ (ensureStep_inv lf cf anchor acc d h)

/-- C1: for every directory list and every behaviour of the remote oracles,
the mapping returned by `ensure_folder_structure` maps the root key to the
caller-supplied anchor id; every non-root key's parent path (its dropLast)
is present in the mapping at a position no later than the key itself; and
the directories are processed in non-decreasing path-segment depth order. -/
theorem c1_folder_map_invariant {σ : Type}
    (listF : σ → Nat → String → Option Nat)
    (createF : σ → String → Nat → σ × Option Nat)
    (dirs : List (List String)) (anchor : Nat) (s0 : σ) :
    fmGet (ensure_folder_structure listF createF dirs anchor s0).2 [] =
      some anchor
    ∧ parentBefore
        ((ensure_folder_structure listF createF dirs anchor s0).2.map Prod.fst)
    ∧ List.Pairwise (fun a b : List String => a.length ≤ b.length)
        (sortByDepth dirs) := by
  have h0 : EnsureInv anchor ([([], anchor)] : FMap) := by
    constructor
    · rfl
    · intro i hi hne
      simp only [List.map_cons, List.map_nil, List.length_cons,
        List.length_nil] at hi
      have : i = 0 := by omega
      subst this
      simp at hne
  have hinv := foldl_ensureStep_inv listF createF anchor (sortByDepth dirs)
    (s0, [([], anchor)]) h0
  refine ⟨head_fmGet hinv.1, hinv.2, ?_⟩
  haveI : IsTotal (List String) (fun a b : List String => a.length ≤ b.length) :=
    ⟨fun a b => Nat.le_total a.length b.length⟩
  haveI : IsTrans (List String) (fun a b : List String => a.length ≤ b.length) :=
    ⟨fun _ _ _ h1 h2 => Nat.le_trans h1 h2⟩
  exact List.sorted_insertionSort _ dirs

/-- Witness for C1 at a concrete directory tree and oracle pair. -/
theorem c1_witness :
    fmGet (ensure_folder_structure (fun (_ : Unit) _ _ => none)
      (fun u _ _ => (u, some 1)) [[], ["a"], ["a", "b"]] 5 ()).2 [] =
      some 5 :=
  (c1_folder_map_invariant (fun (_ : Unit) _ _ => none)
    (fun u _ _ => (u, some 1)) [[], ["a"], ["a", "b"]] 5 ()).1

/-!
## C4: auto-retry of failed uploads
-/

theorem sortDescTs_perm (l : List FailRec) : List.Perm (sortDescTs l) l :=
  List.perm_insertionSort _ l

theorem sortDescTs_sorted (l : List FailRec) :
    List.Pairwise (fun a b : FailRec => b.ts ≤ a.ts) (sortDescTs l) := by
  haveI : IsTotal FailRec (fun a b : FailRec => b.ts ≤ a.ts) :=
    ⟨fun a b => Nat.le_total b.ts a.ts⟩
  haveI : IsTrans FailRec (fun a b : FailRec => b.ts ≤ a.ts) :=
    ⟨fun _ _ _ h1 h2 => Nat.le_trans h2 h1⟩
  exact List.sorted_insertionSort _ l

theorem collectUnique_acc_mem (ex : String → Bool) :
    ∀ (s : List FailRec) (seen : List String) (acc : List FailRec)
      (f : FailRec), f ∈ acc → f ∈ collectUnique ex s seen acc := by
  intro s
  induction s with
  | nil =>
    intro seen acc f hf
    simpa [collectUnique] using hf
  | cons g rest ih =>
    intro seen acc f hf
    unfold collectUnique
    by_cases hs : g.path ∈ seen
    · rw [if_pos hs]
      exact ih seen acc f hf
    · rw [if_neg hs]
      by_cases he : ex g.path = true
      · rw [if_pos he]
        exact ih _ _ f (List.mem_append_left _ hf)
      · rw [if_neg he]
        exact ih seen acc f hf

theorem collectUnique_mem_src (ex : String → Bool) :
    ∀ (s : List FailRec) (seen : List String) (acc : List FailRec)
      (f : FailRec), f ∈ collectUnique ex s seen acc →
      f ∈ acc ∨ (f ∈ s ∧ ex f.path = true ∧ f.path ∉ seen) := by
  intro s
  induction s with
  | nil =>
    intro seen acc f hf
    left
    simpa [collectUnique] using hf
  | cons g rest ih =>
    intro seen acc f hf
    unfold collectUnique at hf
    by_cases hs : g.path ∈ seen
    · rw [if_pos hs] at hf
      rcases ih seen acc f hf with h1 | ⟨h1, h2, h3⟩
      · exact Or.inl h1
      · exact Or.inr ⟨List.mem_cons_of_mem g h1, h2, h3⟩
    · rw [if_neg hs] at hf
      by_cases he : ex g.path = true
      · rw [if_pos he] at hf
        rcases ih _ _ f hf with h1 | ⟨h1, h2, h3⟩
        · rcases List.mem_append.1 h1 with h4 | h4
          · exact Or.inl h4
          · have hfg : f = g := List.mem_singleton.1 h4
            subst hfg
            exact Or.inr ⟨List.mem_cons_self f rest, he, hs⟩
        · refine Or.inr ⟨List.mem_cons_of_mem g h1, h2, ?_⟩
          intro hc
          exact h3 (List.mem_cons_of_mem _ hc)
      · rw [if_neg he] at hf
        rcases ih seen acc f hf with h1 | ⟨h1, h2, h3⟩
        · exact Or.inl h1
        · exact Or.inr ⟨List.mem_cons_of_mem g h1, h2, h3⟩

theorem collectUnique_nodup (ex : String → Bool) :
    ∀ (s : List FailRec) (seen : List String) (acc : List FailRec),
      (acc.map (fun f => f.path)).Nodup →
      (∀ f ∈ acc, f.path ∈ seen) →
      ((collectUnique ex s seen acc).map (fun f => f.path)).Nodup := by
  intro s
  induction s with
  | nil =>
    intro seen acc hacc _
    simpa [collectUnique] using hacc
  | cons g rest ih =>
    intro seen acc hacc hin
    unfold collectUnique
    by_cases hs : g.path ∈ seen
    · rw [if_pos hs]
      exact ih seen acc hacc hin
    · rw [if_neg hs]
      by_cases he : ex g.path = true
      · rw [if_pos he]
        apply ih (g.path :: seen) (acc ++ [g])
        · rw [List.map_append]
          apply List.Nodup.append hacc (by simp)
          intro p hp hp2
          have hp3 : p = g.path := by simpa using hp2
          subst hp3
          rcases List.mem_map.1 hp with ⟨f, hf, hfp⟩
          exact hs (hfp ▸ hin f hf)
        · intro f hf
          rcases List.mem_append.1 hf with h1 | h1
          · exact List.mem_cons_of_mem _ (hin f h1)
          · have hfg : f = g := List.mem_singleton.1 h1
            subst hfg
            exact List.mem_cons_self _ _
      · rw [if_neg he]
        exact ih seen acc hacc hin

theorem collectUnique_covers (ex : String → Bool) :
    ∀ (s : List FailRec) (seen : List String) (acc : List FailRec)
      (P : String), (∃ f ∈ s, f.path = P) → ex P = true → P ∉ seen →
      ∃ f ∈ collectUnique ex s seen acc, f.path = P := by
  intro s
  induction s with
  | nil =>
    intro seen acc P hex _ _
    rcases hex with ⟨f, hf, _⟩
    exact absurd hf (List.not_mem_nil f)
  | cons g rest ih =>
    intro seen acc P hex hexP hns
    unfold collectUnique
    by_cases hgp : g.path = P
    · rw [if_neg (hgp ▸ hns), if_pos (hgp ▸ hexP)]
      exact ⟨g, collectUnique_acc_mem ex rest _ _ g
        (List.mem_append_right _ (List.mem_singleton_self g)), hgp⟩
    · have hrest : ∃ f ∈ rest, f.path = P := by
        rcases hex with ⟨f, hf, hfp⟩
        rcases List.mem_cons.1 hf with h1 | h1
        · exact absurd (h1 ▸ hfp) hgp
        · exact ⟨f, h1, hfp⟩
      by_cases hs : g.path ∈ seen
      · rw [if_pos hs]
        exact ih seen acc P hrest hexP hns
      · rw [if_neg hs]
        by_cases he : ex g.path = true
        · rw [if_pos he]
          apply ih (g.path :: seen) (acc ++ [g]) P hrest hexP
          intro hc
          rcases List.mem_cons.1 hc with h1 | h1
          · exact hgp h1.symm
          · exact hns h1
        · rw [if_neg he]
          exact ih seen acc P hrest hexP hns

theorem collectUnique_max_ts (ex : String → Bool) :
    ∀ (s : List FailRec) (seen : List String) (acc : List FailRec),
      List.Pairwise (fun a b : FailRec => b.ts ≤ a.ts) s →
      (∀ f ∈ acc, ∀ g ∈ s, g.path = f.path → g.ts ≤ f.ts) →
      ∀ f ∈ collectUnique ex s seen acc, ∀ g ∈ s, g.path = f.path →
        g.ts ≤ f.ts := by
  intro s
  induction s with
  | nil =>
    intro seen acc _ _ f _ g hg
    exact absurd hg (List.not_mem_nil g)
  | cons h rest ih =>
    intro seen acc hsort hacc f hf g hg hgp
    have hsort1 : ∀ b ∈ rest, b.ts ≤ h.ts :=
      fun b hb => List.rel_of_pairwise_cons hsort hb
    have hsort2 : List.Pairwise (fun a b : FailRec => b.ts ≤ a.ts) rest :=
      List.Pairwise.of_cons hsort
    unfold collectUnique at hf
    by_cases hs : h.path ∈ seen
    · rw [if_pos hs] at hf
      have hacc2 : ∀ f ∈ acc, ∀ g ∈ rest, g.path = f.path → g.ts ≤ f.ts :=
        fun f hfa g hgr => hacc f hfa g (List.mem_cons_of_mem h hgr)
      rcases List.mem_cons.1 hg with hgh | hgr
      · subst hgh
        rcases collectUnique_mem_src ex rest seen acc f hf with h1 | ⟨_, _, h3⟩
        · exact hacc f h1 g (List.mem_cons_self g rest) hgp
        · exact absurd (hgp ▸ hs) h3
      · exact ih seen acc hsort2 hacc2 f hf g hgr hgp
    · rw [if_neg hs] at hf
      by_cases he : ex h.path = true
      · rw [if_pos he] at hf
        have hacc2 : ∀ f ∈ acc ++ [h], ∀ g ∈ rest, g.path = f.path →
            g.ts ≤ f.ts := by
          intro f hfa g hgr hgp2
          rcases List.mem_append.1 hfa with h1 | h1
          · exact hacc f h1 g (List.mem_cons_of_mem h hgr) hgp2
          · have hfh : f = h := List.mem_singleton.1 h1
            subst hfh
            exact hsort1 g hgr
        rcases List.mem_cons.1 hg with hgh | hgr
        · subst hgh
          rcases collectUnique_mem_src ex rest _ _ f hf with h1 | ⟨_, _, h3⟩
          · rcases List.mem_append.1 h1 with h2 | h2
            · exact hacc f h2 g (List.mem_cons_self g rest) hgp
            · have hfh : f = g := List.mem_singleton.1 h2
              subst hfh
              exact Nat.le_refl _
          · exact absurd (hgp ▸ List.mem_cons_self g.path seen) h3
        · exact ih _ _ hsort2 hacc2 f hf g hgr hgp
      · rw [if_neg he] at hf
        have hacc2 : ∀ f ∈ acc, ∀ g ∈ rest, g.path = f.path → g.ts ≤ f.ts :=
          fun f hfa g hgr => hacc f hfa g (List.mem_cons_of_mem h hgr)
        rcases List.mem_cons.1 hg with hgh | hgr
        · subst hgh
          rcases collectUnique_mem_src ex rest seen acc f hf with h1 | ⟨_, h2, _⟩
          · exact hacc f h1 g (List.mem_cons_self g rest) hgp
          · exact absurd (hgp ▸ h2) (by simp [he])
        · exact ih seen acc hsort2 hacc2 f hf g hgr hgp

theorem eraseRec_sublist (l : List FailRec) (r : FailRec) :
    List.Sublist (eraseRec l r) l := by
  induction l with
  | nil => simp [eraseRec]
  | cons x xs ih =>
    unfold eraseRec
    by_cases hx : x = r
    · rw [if_pos hx]
      exact List.sublist_cons_self x xs
    · rw [if_neg hx]
      exact List.Sublist.cons₂ x ih

theorem mem_of_mem_eraseRec {l : List FailRec} {r a : FailRec}
    (h : a ∈ eraseRec l r) : a ∈ l :=
  (eraseRec_sublist l r).mem h

theorem mem_eraseRec_of_ne {l : List FailRec} {r a : FailRec}
    (ha : a ∈ l) (hne : a ≠ r) : a ∈ eraseRec l r := by
  induction l with
  | nil => exact absurd ha (List.not_mem_nil a)
  | cons x xs ih =>
    unfold eraseRec
    by_cases hx : x = r
    · rw [if_pos hx]
      rcases List.mem_cons.1 ha with h1 | h1
      · exact absurd (h1.trans hx) hne
      · exact h1
    · rw [if_neg hx]
      rcases List.mem_cons.1 ha with h1 | h1
      · exact h1 ▸ List.mem_cons_self x _
      · exact List.mem_cons_of_mem x (ih h1)

theorem not_mem_eraseRec_self {l : List FailRec} {r : FailRec}
    (hnd : l.Nodup) : r ∉ eraseRec l r := by
  induction l with
  | nil => simp [eraseRec]
  | cons x xs ih =>
    unfold eraseRec
    by_cases hx : x = r
    · rw [if_pos hx]
      subst hx
      exact (List.nodup_cons.1 hnd).1
    · rw [if_neg hx]
      intro hc
      rcases List.mem_cons.1 hc with h1 | h1
      · exact hx h1.symm
      · exact ih (List.nodup_cons.1 hnd).2 h1

theorem nodup_eraseRec {l : List FailRec} {r : FailRec} (hnd : l.Nodup) :
    (eraseRec l r).Nodup :=
  hnd.sublist (eraseRec_sublist l r)

theorem retryFold_snd (picks : List FailRec) :
    ∀ (log acc : List FailRec),
      (picks.foldl (fun st f => (eraseRec st.1 f, st.2 ++ [f]))
        (log, acc)).2 = acc ++ picks := by
  induction picks with
  | nil => intro log acc; simp
  | cons p rest ih =>
    intro log acc
    rw [List.foldl_cons, ih]
    simp

theorem retryFold_fst (picks : List FailRec) :
    ∀ (log acc : List FailRec),
      (picks.foldl (fun st f => (eraseRec st.1 f, st.2 ++ [f]))
        (log, acc)).1 = picks.foldl (fun l f => eraseRec l f) log := by
  induction picks with
  | nil => intro log acc; rfl
  | cons p rest ih =>
    intro log acc
    rw [List.foldl_cons, List.foldl_cons, ih]

theorem foldl_eraseRec_mem (picks : List FailRec) :
    ∀ (log : List FailRec), log.Nodup → picks.Nodup →
      (∀ f ∈ picks, f ∈ log) →
      ∀ r, r ∈ picks.foldl (fun l f => eraseRec l f) log ↔
        (r ∈ log ∧ r ∉ picks) := by
  induction picks with
  | nil =>
    intro log _ _ _ r
    simp
  | cons p rest ih =>
    intro log hnd hpnd hsub r
    rw [List.foldl_cons]
    have hnd2 : (eraseRec log p).Nodup := nodup_eraseRec hnd
    have hpnd2 : rest.Nodup := (List.nodup_cons.1 hpnd).2
    have hpnm : p ∉ rest := (List.nodup_cons.1 hpnd).1
    have hsub2 : ∀ f ∈ rest, f ∈ eraseRec log p := by
      intro f hf
      apply mem_eraseRec_of_ne (hsub f (List.mem_cons_of_mem p hf))
      intro hc
      exact hpnm (hc ▸ hf)
    rw [ih (eraseRec log p) hnd2 hpnd2 hsub2 r]
    constructor
    · intro ⟨h1, h2⟩
      refine ⟨mem_of_mem_eraseRec h1, ?_⟩
      intro hc
      rcases List.mem_cons.1 hc with h3 | h3
      · exact not_mem_eraseRec_self hnd (h3 ▸ h1)
      · exact h2 h3
    · intro ⟨h1, h2⟩
      have hrp : r ≠ p := fun hc => h2 (hc ▸ List.mem_cons_self p rest)
      exact ⟨mem_eraseRec_of_ne h1 hrp, fun hc =>
        h2 (List.mem_cons_of_mem p hc)⟩

theorem auto_retry_snd (log : List FailRec) (ex : String → Bool) :
    (auto_retry_failed_uploads log ex).2 = uniqueFailures log ex := by
  unfold auto_retry_failed_uploads
  rw [retryFold_snd]
  simp

theorem auto_retry_fst (log : List FailRec) (ex : String → Bool) :
    (auto_retry_failed_uploads log ex).1 =
      (uniqueFailures log ex).foldl (fun l f => eraseRec l f) log := by
  unfold auto_retry_failed_uploads
  rw [retryFold_fst]

/-- Counterexample to C4: with two failure records for the same path (both
with the file still on disk), the path is re-enqueued exactly once using
the most recent record, but the older record for that path remains in the
failure log — the file is not removed from the failure log. -/
theorem c4_counterexample :
    (auto_retry_failed_uploads
        [⟨"p", 1, "e", 1⟩, ⟨"p", 1, "e", 2⟩] (fun _ => true)).2 =
      [⟨"p", 1, "e", 2⟩]
    ∧ (auto_retry_failed_uploads
        [⟨"p", 1, "e", 1⟩, ⟨"p", 1, "e", 2⟩] (fun _ => true)).1 =
      [⟨"p", 1, "e", 1⟩]
    ∧ ((auto_retry_failed_uploads
        [⟨"p", 1, "e", 1⟩, ⟨"p", 1, "e", 2⟩] (fun _ => true)).1.filter
          (fun f => f.path == "p")) ≠ [] := by
  refine ⟨by decide, by decide, by decide⟩

/-- C4 amended: when the monitor's probe first succeeds, every file path in
the failure log whose file still exists is re-enqueued exactly once, using
the most recent failure record for that path; after requeue that record
(and only that record) is removed from the failure log — older records for
the same path remain. -/
theorem c4_auto_retry_amended (log : List FailRec) (ex : String → Bool)
    (hts : List.Pairwise (fun a b : FailRec => a.ts < b.ts) log) :
    ((auto_retry_failed_uploads log ex).2.map (fun f => f.path)).Nodup
    ∧ (∀ P, (∃ f ∈ (auto_retry_failed_uploads log ex).2, f.path = P) ↔
        (ex P = true ∧ ∃ f ∈ log, f.path = P))
    ∧ (∀ f ∈ (auto_retry_failed_uploads log ex).2,
        f ∈ log ∧ ex f.path = true ∧
        ∀ g ∈ log, g.path = f.path → g.ts ≤ f.ts)
    ∧ (∀ f ∈ (auto_retry_failed_uploads log ex).2,
        f ∉ (auto_retry_failed_uploads log ex).1)
    ∧ (∀ r ∈ log, r ∉ (auto_retry_failed_uploads log ex).2 →
        r ∈ (auto_retry_failed_uploads log ex).1) := by
  have hperm := sortDescTs_perm log
  rw [auto_retry_snd, auto_retry_fst]
  have hmem_src : ∀ f ∈ uniqueFailures log ex, f ∈ log ∧ ex f.path = true := by
    intro f hf
    rcases collectUnique_mem_src ex (sortDescTs log) [] [] f hf with h1 | ⟨h1, h2, _⟩
    · exact absurd h1 (List.not_mem_nil f)
    · exact ⟨hperm.mem_iff.1 h1, h2⟩
  have hnodup : ((uniqueFailures log ex).map (fun f => f.path)).Nodup :=
    collectUnique_nodup ex (sortDescTs log) [] [] (by simp) (by simp)
  have hmax : ∀ f ∈ uniqueFailures log ex, ∀ g ∈ log, g.path = f.path →
      g.ts ≤ f.ts := by
    intro f hf g hg hgp
    exact collectUnique_max_ts ex (sortDescTs log) [] []
      (sortDescTs_sorted log) (by simp) f hf g (hperm.mem_iff.2 hg) hgp
  have hnd_log : log.Nodup := by
    apply List.Pairwise.imp _ hts
    intro a b hlt heq
    subst heq
    exact Nat.lt_irrefl _ hlt
  have hnd_u : (uniqueFailures log ex).Nodup := List.Nodup.of_map _ hnodup
  have hus : ∀ f ∈ uniqueFailures log ex, f ∈ log :=
    fun f hf => (hmem_src f hf).1
  have hfold := foldl_eraseRec_mem (uniqueFailures log ex) log hnd_log hnd_u hus
  refine ⟨hnodup, ?_, ?_, ?_, ?_⟩
  · intro P
    constructor
    · intro ⟨f, hf, hfp⟩
      rcases hmem_src f hf with ⟨h1, h2⟩
      exact ⟨hfp ▸ h2, f, h1, hfp⟩
    · intro ⟨hexP, f, hf, hfp⟩
      apply collectUnique_covers ex (sortDescTs log) [] [] P
      · exact ⟨f, hperm.mem_iff.2 hf, hfp⟩
      · exact hexP
      · exact List.not_mem_nil P
  · intro f hf
    exact ⟨(hmem_src f hf).1, (hmem_src f hf).2, hmax f hf⟩
  · intro f hf hc
    exact absurd hf ((hfold f).1 hc).2
  · intro r hr hru
    exact (hfold r).2 ⟨hr, hru⟩

/-- Witness for C4 amended at a concrete failure log. -/
theorem c4_witness :
    ((auto_retry_failed_uploads
        [⟨"a", 1, "e1", 1⟩, ⟨"b", 2, "e2", 2⟩, ⟨"a", 1, "e3", 3⟩]
        (fun p => p == "a")).2.map (fun f => f.path)).Nodup :=
  (c4_auto_retry_amended
    [⟨"a", 1, "e1", 1⟩, ⟨"b", 2, "e2", 2⟩, ⟨"a", 1, "e3", 3⟩]
    (fun p => p == "a") (by decide)).1

/-!
## C6: idempotence of `ensure_folder_structure`
-/

theorem ensureStep_nil {σ : Type} (lf : σ → Nat → String → Option Nat)
    (cf : σ → String → Nat → σ × Option Nat) (acc : σ × FMap)
    (d : List String) (hd : d = []) : ensureStep lf cf acc d = acc := by
  unfold ensureStep
  rw [if_pos hd]

theorem ensureStep_parent_none {σ : Type} (lf : σ → Nat → String → Option Nat)
    (cf : σ → String → Nat → σ × Option Nat) (acc : σ × FMap)
    (d : List String) (hd : d ≠ []) (hg : fmGet acc.2 d.dropLast = none) :
    ensureStep lf cf acc d = acc := by
  unfold ensureStep
  rw [if_neg hd]
  split
  · rfl
  · next pid hg2 =>
    rw [hg] at hg2
    exact absurd hg2 (by simp)

theorem ensureStep_found {σ : Type} (lf : σ → Nat → String → Option Nat)
    (cf : σ → String → Nat → σ × Option Nat) (acc : σ × FMap)
    (d : List String) (pid fid : Nat) (hd : d ≠ [])
    (hg : fmGet acc.2 d.dropLast = some pid)
    (hl : lf acc.1 pid (d.getLastD "") = some fid) :
    ensureStep lf cf acc d =
      (acc.1, if fid ≠ 0 then fmInsert acc.2 d fid else acc.2) := by
  unfold ensureStep
  rw [if_neg hd]
  split
  · next hg2 =>
    rw [hg] at hg2
    exact absurd hg2 (by simp)
  · next pid2 hg2 =>
    rw [hg] at hg2
    have hp : pid2 = pid := (Option.some.inj hg2).symm
    subst hp
    split
    · next fid2 hl2 =>
      rw [hl] at hl2
      have hf : fid2 = fid := (Option.some.inj hl2).symm
      rw [hf]
      by_cases hz : fid ≠ 0
      · rw [if_pos hz, if_pos hz]
      · rw [if_neg hz, if_neg hz]
    · next hl2 =>
      rw [hl] at hl2
      exact absurd hl2 (by simp)

theorem createSrv_zero (st : RemoteSt) (n : String) (p : Nat)
    (hz : st.nextId = 0) :
    createSrv st n p =
      (⟨st.folders ++ [⟨p, padName n, st.nextId⟩], st.nextId + 1⟩, none) := by
  unfold createSrv
  rw [if_pos hz]

theorem createSrv_pos (st : RemoteSt) (n : String) (p : Nat)
    (hz : st.nextId ≠ 0) :
    createSrv st n p =
      (⟨st.folders ++ [⟨p, padName n, st.nextId⟩], st.nextId + 1⟩,
        some st.nextId) := by
  unfold createSrv
  rw [if_neg hz]

theorem ensureStep_create (acc : RemoteSt × FMap) (d : List String)
    (pid : Nat) (hd : d ≠ []) (hg : fmGet acc.2 d.dropLast = some pid)
    (hl : listSrv acc.1 pid (d.getLastD "") = none) :
    ensureStep listSrv createSrv acc d =
      (⟨acc.1.folders ++ [⟨pid, padName (d.getLastD ""), acc.1.nextId⟩],
          acc.1.nextId + 1⟩,
        if acc.1.nextId ≠ 0 then fmInsert acc.2 d acc.1.nextId else acc.2) := by
  unfold ensureStep
  rw [if_neg hd]
  split
  · next hg2 =>
    rw [hg] at hg2
    exact absurd hg2 (by simp)
  · next pid2 hg2 =>
    rw [hg] at hg2
    have hp : pid2 = pid := (Option.some.inj hg2).symm
    subst hp
    split
    · next fid2 hl2 =>
      rw [hl] at hl2
      exact absurd hl2 (by simp)
    · next hl2 =>
      by_cases hz : acc.1.nextId = 0
      · rw [createSrv_zero _ _ _ hz]
        simp [hz]
      · rw [createSrv_pos _ _ _ hz]
        simp [hz]

theorem listSrv_none_iff (st : RemoteSt) (p : Nat) (n : String) :
    listSrv st p n = none ↔ filtPN st p n = [] := by
  unfold listSrv
  rw [Option.map_eq_none', List.getLast?_eq_none_iff]

theorem listSrv_congr {st st2 : RemoteSt} {p : Nat} {n : String}
    (h : filtPN st p n = filtPN st2 p n) : listSrv st p n = listSrv st2 p n := by
  unfold listSrv
  rw [h]

theorem filtPN_append (fs : List RFolder) (k k2 : Nat) (e : RFolder)
    (p : Nat) (n : String) :
    filtPN ⟨fs ++ [e], k⟩ p n =
      filtPN ⟨fs, k2⟩ p n ++
        if e.parentId == p && e.name == n then [e] else [] := by
  unfold filtPN
  rw [List.filter_append]
  congr 1
  by_cases hm : (e.parentId == p && e.name == n) = true
  · simp [List.filter_cons, hm]
  · simp [List.filter_cons, hm]

theorem runSrv_cons (d : List String) (rest : List (List String))
    (acc : RemoteSt × FMap) :
    runSrv (d :: rest) acc =
      runSrv rest (ensureStep listSrv createSrv acc d) := by
  unfold runSrv
  rw [List.foldl_cons]

theorem listSrv_some_filt_ne {st : RemoteSt} {p : Nat} {n : String}
    {fid : Nat} (h : listSrv st p n = some fid) : filtPN st p n ≠ [] := by
  intro hc
  have h2 := (listSrv_none_iff st p n).2 hc
  rw [h2] at h
  exact absurd h (by simp)

theorem runSrv_stable : ∀ (ds : List (List String)),
    (∀ d ∈ ds, d ≠ [] → 3 ≤ (d.getLastD "").length) →
    ∀ (acc : RemoteSt × FMap) (p : Nat) (n : String),
      filtPN acc.1 p n ≠ [] →
      filtPN (runSrv ds acc).1 p n = filtPN acc.1 p n := by
  intro ds
  induction ds with
  | nil =>
    intro _ acc p n _
    rfl
  | cons d rest ih =>
    intro hn acc p n hne
    have hn2 : ∀ d2 ∈ rest, d2 ≠ [] → 3 ≤ (d2.getLastD "").length :=
      fun d2 h2 => hn d2 (List.mem_cons_of_mem d h2)
    rw [runSrv_cons]
    by_cases hd : d = []
    · rw [ensureStep_nil _ _ _ _ hd]
      exact ih hn2 acc p n hne
    · cases hg : fmGet acc.2 d.dropLast with
      | none =>
        rw [ensureStep_parent_none _ _ _ _ hd hg]
        exact ih hn2 acc p n hne
      | some pid =>
        cases hl : listSrv acc.1 pid (d.getLastD "") with
        | some fid =>
          rw [ensureStep_found listSrv createSrv acc d pid fid hd hg hl]
          exact ih hn2 (acc.1, if fid ≠ 0 then fmInsert acc.2 d fid else acc.2)
            p n hne
        | none =>
          rw [ensureStep_create acc d pid hd hg hl]
          have hpad : padName (d.getLastD "") = d.getLastD "" :=
            padName_of_le _ (hn d (List.mem_cons_self d rest) hd)
          have hfe : filtPN acc.1 pid (d.getLastD "") = [] :=
            (listSrv_none_iff _ _ _).1 hl
          have hcond : ((⟨pid, padName (d.getLastD ""), acc.1.nextId⟩ :
              RFolder).parentId == p &&
              (⟨pid, padName (d.getLastD ""), acc.1.nextId⟩ :
                RFolder).name == n) = false := by
            rw [Bool.and_eq_false_iff]
            by_cases hp : pid = p
            · right
              rw [beq_eq_false_iff_ne]
              show padName (d.getLastD "") ≠ n
              rw [hpad]
              intro hnn
              apply hne
              rw [← hp, ← hnn]
              exact hfe
            · left
              rw [beq_eq_false_iff_ne]
              exact hp
          have hS : filtPN (⟨acc.1.folders ++
              [⟨pid, padName (d.getLastD ""), acc.1.nextId⟩],
              acc.1.nextId + 1⟩ : RemoteSt) p n = filtPN acc.1 p n := by
            rw [filtPN_append acc.1.folders _ acc.1.nextId _ p n, hcond]
            simp
          have hne2 : filtPN (⟨acc.1.folders ++
              [⟨pid, padName (d.getLastD ""), acc.1.nextId⟩],
              acc.1.nextId + 1⟩ : RemoteSt) p n ≠ [] := by
            rw [hS]
            exact hne
          have := ih hn2 (⟨acc.1.folders ++
              [⟨pid, padName (d.getLastD ""), acc.1.nextId⟩],
              acc.1.nextId + 1⟩,
            if acc.1.nextId ≠ 0 then fmInsert acc.2 d acc.1.nextId
            else acc.2) p n hne2
          rw [this]
          exact hS

theorem runSrv_idem : ∀ (ds : List (List String)),
    (∀ d ∈ ds, d ≠ [] → 3 ≤ (d.getLastD "").length) →
    ∀ (acc : RemoteSt × FMap),
      runSrv ds ((runSrv ds acc).1, acc.2) = runSrv ds acc := by
  intro ds
  induction ds with
  | nil =>
    intro _ acc
    rfl
  | cons d rest ih =>
    intro hn acc
    have hn2 : ∀ d2 ∈ rest, d2 ≠ [] → 3 ≤ (d2.getLastD "").length :=
      fun d2 h2 => hn d2 (List.mem_cons_of_mem d h2)
    rw [runSrv_cons, runSrv_cons]
    by_cases hd : d = []
    · rw [ensureStep_nil _ _ _ _ hd, ensureStep_nil _ _ _ _ hd]
      exact ih hn2 acc
    · cases hg : fmGet acc.2 d.dropLast with
      | none =>
        rw [ensureStep_parent_none listSrv createSrv acc d hd hg,
          ensureStep_parent_none listSrv createSrv
            ((runSrv rest acc).1, acc.2) d hd hg]
        exact ih hn2 acc
      | some pid =>
        cases hl : listSrv acc.1 pid (d.getLastD "") with
        | some fid =>
          rw [ensureStep_found listSrv createSrv acc d pid fid hd hg hl]
          have hfil : filtPN acc.1 pid (d.getLastD "") ≠ [] :=
            listSrv_some_filt_ne hl
          have hstab := runSrv_stable rest hn2
            (acc.1, if fid ≠ 0 then fmInsert acc.2 d fid else acc.2)
            pid (d.getLastD "") hfil
          have hl2 : listSrv (runSrv rest
              (acc.1, if fid ≠ 0 then fmInsert acc.2 d fid else acc.2)).1
              pid (d.getLastD "") = some fid := by
            rw [listSrv_congr hstab]
            exact hl
          rw [ensureStep_found listSrv createSrv
            ((runSrv rest
              (acc.1, if fid ≠ 0 then fmInsert acc.2 d fid else acc.2)).1,
              acc.2) d pid fid hd hg hl2]
          exact ih hn2
            (acc.1, if fid ≠ 0 then fmInsert acc.2 d fid else acc.2)
        | none =>
          rw [ensureStep_create acc d pid hd hg hl]
          have hpad : padName (d.getLastD "") = d.getLastD "" :=
            padName_of_le _ (hn d (List.mem_cons_self d rest) hd)
          have hfe : filtPN acc.1 pid (d.getLastD "") = [] :=
            (listSrv_none_iff _ _ _).1 hl
          have hS : filtPN (⟨acc.1.folders ++
              [⟨pid, padName (d.getLastD ""), acc.1.nextId⟩],
              acc.1.nextId + 1⟩ : RemoteSt) pid (d.getLastD "") =
              [⟨pid, padName (d.getLastD ""), acc.1.nextId⟩] := by
            rw [filtPN_append acc.1.folders _ acc.1.nextId _ pid
              (d.getLastD "")]
            rw [show ((⟨pid, padName (d.getLastD ""), acc.1.nextId⟩ :
              RFolder).parentId == pid &&
              (⟨pid, padName (d.getLastD ""), acc.1.nextId⟩ :
                RFolder).name == (d.getLastD "")) = true from by
              rw [hpad]
              simp]
            rw [show filtPN ⟨acc.1.folders, acc.1.nextId⟩ pid
              (d.getLastD "") = [] from hfe]
            rfl
          have hne2 : filtPN (⟨acc.1.folders ++
              [⟨pid, padName (d.getLastD ""), acc.1.nextId⟩],
              acc.1.nextId + 1⟩ : RemoteSt) pid (d.getLastD "") ≠ [] := by
            rw [hS]
            simp
          have hstab := runSrv_stable rest hn2
            (⟨acc.1.folders ++
              [⟨pid, padName (d.getLastD ""), acc.1.nextId⟩],
              acc.1.nextId + 1⟩,
             if acc.1.nextId ≠ 0 then fmInsert acc.2 d acc.1.nextId
             else acc.2) pid (d.getLastD "") hne2
          have hl2 : listSrv (runSrv rest
              (⟨acc.1.folders ++
                [⟨pid, padName (d.getLastD ""), acc.1.nextId⟩],
                acc.1.nextId + 1⟩,
               if acc.1.nextId ≠ 0 then fmInsert acc.2 d acc.1.nextId
               else acc.2)).1 pid (d.getLastD "") = some acc.1.nextId := by
            rw [listSrv_congr hstab]
            unfold listSrv
            rw [hS]
            rfl
          rw [ensureStep_found listSrv createSrv
            ((runSrv rest
              ((⟨acc.1.folders ++
                [(⟨pid, padName (d.getLastD ""), acc.1.nextId⟩ : RFolder)],
                acc.1.nextId + 1⟩ : RemoteSt),
               if acc.1.nextId ≠ 0 then fmInsert acc.2 d acc.1.nextId
               else acc.2)).1, acc.2) d pid acc.1.nextId hd hg hl2]
          exact ih hn2
            (⟨acc.1.folders ++
              [⟨pid, padName (d.getLastD ""), acc.1.nextId⟩],
              acc.1.nextId + 1⟩,
             if acc.1.nextId ≠ 0 then fmInsert acc.2 d acc.1.nextId
             else acc.2)

/-- Counterexample to C6: a directory whose basename is shorter than 3
characters ("ab") is created remotely under the padded name "ab_", but the
second run looks up the unpadded name "ab", misses, and issues a second
folder-creation call — the remote state grows from 1 to 2 folders and the
second mapping assigns a different id to "ab". -/
theorem c6_counterexample :
    (ensureSrv [[], ["ab"]] 0 ⟨[], 1⟩).1.folders.length = 1
    ∧ (ensureSrv [[], ["ab"]] 0
        (ensureSrv [[], ["ab"]] 0 ⟨[], 1⟩).1).1.folders.length = 2
    ∧ fmGet (ensureSrv [[], ["ab"]] 0 ⟨[], 1⟩).2 ["ab"] = some 1
    ∧ fmGet (ensureSrv [[], ["ab"]] 0
        (ensureSrv [[], ["ab"]] 0 ⟨[], 1⟩).1).2 ["ab"] = some 2 := by
  refine ⟨by decide, by decide, by decide, by decide⟩

/-- C6 amended: when every directory basename is at least 3 characters long
(so the name-padding of `create_folder` never fires), running
`ensure_folder_structure` a second time against the remote state left by
the first run changes nothing: the remote state is unchanged (no
folder-creation call is issued — every folder is resolved by the
`list_folders` lookup under its parent) and the returned mapping equals the
first run's mapping. -/
theorem c6_idempotence_amended (dirs : List (List String)) (anchor : Nat)
    (R0 : RemoteSt)
    (hn : ∀ d ∈ dirs, d ≠ [] → 3 ≤ (d.getLastD "").length) :
    ensureSrv dirs anchor (ensureSrv dirs anchor R0).1 =
      ensureSrv dirs anchor R0
    ∧ (ensureSrv dirs anchor (ensureSrv dirs anchor R0).1).1.folders =
        (ensureSrv dirs anchor R0).1.folders := by
  have hn2 : ∀ d ∈ sortByDepth dirs, d ≠ [] → 3 ≤ (d.getLastD "").length := by
    intro d hd
    exact hn d ((List.perm_insertionSort
      (fun a b : List String => a.length ≤ b.length) dirs).mem_iff.1 hd)
  have h := runSrv_idem (sortByDepth dirs) hn2 (R0, [([], anchor)])
  exact ⟨h, congrArg (fun t : RemoteSt × FMap => t.1.folders) h⟩

/-- Witness for C6 amended at a concrete tree whose names are long
enough. -/
theorem c6_witness :
    ensureSrv [[], ["abc"], ["abc", "defg"]] 7
        (ensureSrv [[], ["abc"], ["abc", "defg"]] 7 ⟨[], 1⟩).1 =
      ensureSrv [[], ["abc"], ["abc", "defg"]] 7 ⟨[], 1⟩ :=
  (c6_idempotence_amended [[], ["abc"], ["abc", "defg"]] 7 ⟨[], 1⟩
    (by decide)).1
